import Mathlib

/-!
Verification development for the IceBridge fetch/process pipeline
(`fetch_icebridge_data.py`, `icebridge_common.py`, `process_icebridge_run.py`).

The Python code is shallowly embedded: real-valued quantities (projection
bounds, ratios, latitudes) are modelled as exact rationals, Python ints as
`Int`/`Nat`, raised exceptions as `Except PyErr`, and the on-disk index file as
a list of lines, each line a list of characters.
-/

attribute [local semireducible] Rat.sub Rat.add Rat.mul Rat.inv

/-- Error values corresponding to the exceptions the embedded Python code can
raise.  `fuelOut` is an artifact of bounding the `while` recursion of
`getImageSpacing` by explicit fuel; the fuel supplied by `getImageSpacing`
is never exhausted, since each pass increases the interval by one and the
loop raises `tooFewImages` once the interval reaches the image count. -/
inductive PyErr where
  | zeroDivision
  | tooFewImages
  | invalidIndex
  | valueErr
  | fuelOut
deriving DecidableEq, Repr

instance {ε α : Type _} [DecidableEq ε] [DecidableEq α] : DecidableEq (Except ε α) :=
  fun x y =>
    match x, y with
    | .ok a, .ok b =>
      if h : a = b then .isTrue (by rw [h]) else .isFalse (fun hc => h (Except.ok.inj hc))
    | .error a, .error b =>
      if h : a = b then .isTrue (by rw [h]) else .isFalse (fun hc => h (Except.error.inj hc))
    | .ok _, .error _ => .isFalse (fun hc => Except.noConfusion hc)
    | .error _, .ok _ => .isFalse (fun hc => Except.noConfusion hc)

/-! ## SpacingAnalyzer (`process_icebridge_run.py`, `getImageSpacing`) -/

/-- Bounding box `(minX, maxX, minY, maxY)` in projected coordinates,
as produced by `getImageGeoInfo`'s `projection_bounds`. -/
structure Bbox where
  minX : ℚ
  maxX : ℚ
  minY : ℚ
  maxY : ℚ
deriving DecidableEq, Repr

/-- Embeds the nested helper `getBboxArea` of `getImageSpacing`
(`process_icebridge_run.py` lines 131-137): width times height, with a
negative width or height giving area `0`. -/
def getBboxArea (bbox : Bbox) : ℚ :=
  let width := bbox.maxX - bbox.minX
  let height := bbox.maxY - bbox.minY
  if width < 0 ∨ height < 0 then 0 else width * height

/-- Embeds the intersection box computed at `process_icebridge_run.py`
lines 157-160 for `thisBox = bboxes[i]` and `lastBox = bboxes[i+interval]`. -/
def intersectBox (thisBox lastBox : Bbox) : Bbox :=
  ⟨max lastBox.minX thisBox.minX, min lastBox.maxX thisBox.maxX,
   max lastBox.minY thisBox.minY, min lastBox.maxY thisBox.maxY⟩

/-- The module constant `MAX_RATIO = 0.8` of `getImageSpacing`. -/
def maxRatioBound : ℚ := 8/10

/-- The module constant `MIN_RATIO = 0.4` of `getImageSpacing`. -/
def minRatioBound : ℚ := 4/10

/-- Embeds the inner `for i in range(0, numOrthos-interval)` loop of
`getImageSpacing` (lines 152-173) over the list of pairs
`((frames[i], bboxes[i]), bboxes[i+interval])`.  Returns the accumulated
ratio sum, the count of pairs with positive intersection area, and the break
frames appended during this pass.  The per-pair `ratio = area / thisArea`
raises `ZeroDivisionError` in Python when `thisArea` is zero. -/
def scanPairs (interval : Nat) : List ((Nat × Bbox) × Bbox) → Except PyErr (ℚ × Nat × List Nat)
  | [] => .ok (0, 0, [])
  | ((frame, thisBox), lastBox) :: rest =>
    let thisArea := getBboxArea thisBox
    let area := getBboxArea (intersectBox thisBox lastBox)
    if thisArea = 0 then .error .zeroDivision
    else
      match scanPairs interval rest with
      | .error e => .error e
      | .ok (ratioSum, count, brs) =>
        .ok (if 0 < area then ratioSum + area / thisArea else ratioSum,
             if 0 < area then count + 1 else count,
             if interval = 1 ∧ area ≤ 0 then frame :: brs else brs)

/-- The pair list scanned at a given interval: `bboxes[i]` against
`bboxes[i+interval]`, with `frames[i]` carried for break detection. -/
def pairsAt (bboxes : List Bbox) (frames : List Nat) (interval : Nat) :
    List ((Nat × Bbox) × Bbox) :=
  (frames.zip bboxes).zip (bboxes.drop interval)

/-- One pass of the `while meanRatio > MAX_RATIO` loop body of
`getImageSpacing` at a fixed interval: raise if `numOrthos <= interval`
(line 148), scan all pairs, then divide the ratio sum by the count
(line 176, a `ZeroDivisionError` when the count is zero). -/
def meanRatioAt (bboxes : List Bbox) (frames : List Nat) (interval : Nat) :
    Except PyErr ℚ :=
  if bboxes.length ≤ interval then .error .tooFewImages
  else
    match scanPairs interval (pairsAt bboxes frames interval) with
    | .error e => .error e
    | .ok (ratioSum, count, _) =>
      if count = 0 then .error .zeroDivision
      else .ok (ratioSum / (count : ℚ))

/-- Embeds the `while meanRatio > MAX_RATIO` loop of `getImageSpacing`
(lines 140-177), called with the interval the next pass will use (the Python
loop increments `interval` at the top of its body, starting from `0`).
Returns the settled interval, its mean ratio, and the accumulated breaks.
The fuel only bounds the recursion; see `PyErr.fuelOut`. -/
def spacingLoop (bboxes : List Bbox) (frames : List Nat) :
    Nat → Nat → Except PyErr (Nat × ℚ × List Nat)
  | 0, _ => .error .fuelOut
  | fuel+1, interval =>
    if bboxes.length ≤ interval then .error .tooFewImages
    else
      match scanPairs interval (pairsAt bboxes frames interval) with
      | .error e => .error e
      | .ok (ratioSum, count, brs) =>
        if count = 0 then .error .zeroDivision
        else
          let meanRatio := ratioSum / (count : ℚ)
          if maxRatioBound < meanRatio then
            match spacingLoop bboxes frames fuel (interval + 1) with
            | .error e => .error e
            | .ok (interval2, mean2, brs2) => .ok (interval2, mean2, brs ++ brs2)
          else .ok (interval, meanRatio, brs)

/-- Embeds `getImageSpacing` (`process_icebridge_run.py` lines 139-186) on the
already-loaded bounding boxes and frame numbers: run the interval search
starting at interval `1`, then back the interval off by one step when the
settled mean ratio is below `MIN_RATIO` and the interval exceeds `1`
(lines 179-181).  Returns the chosen interval and the detected breaks. -/
def getImageSpacing (bboxes : List Bbox) (frames : List Nat) :
    Except PyErr (Nat × List Nat) :=
  match spacingLoop bboxes frames (bboxes.length + 1) 1 with
  | .error e => .error e
  | .ok (interval, meanRatio, brs) =>
    .ok (if meanRatio < minRatioBound ∧ 1 < interval then interval - 1 else interval, brs)

/-- The adjacent-pair coverage gaps: frame `i` is a break exactly when the
intersection area of `bboxes[i]` and `bboxes[i+1]` is zero or negative. -/
def adjacentBreaks (bboxes : List Bbox) (frames : List Nat) : List Nat :=
  (pairsAt bboxes frames 1).filterMap
    (fun p => if getBboxArea (intersectBox p.1.2 p.2) ≤ 0 then some p.1.1 else none)

/-! ## BatchScheduler (`process_icebridge_run.py`, `main`, lines 355-408) -/

/-- Python list slicing `l[k:]`: for a negative start the slice begins at
`max(len(l) + k, 0)`, for a non-negative start at `min(k, len(l))`. -/
def pySliceFrom (k : Int) (l : List α) : List α :=
  if k < 0 then l.drop ((l.length + k).toNat) else l.drop k.toNat

/-- The option values the batching loop of `main` reads: `--start-frame` and
`--stop-frame` (default `-1`), `--bundle-length` (default `2`), the image
stereo interval (from `getImageSpacing` or a manual override), and the break
frames returned by `getImageSpacing`. -/
structure SchedParams where
  startFrame : Int
  stopFrame : Int
  bundleLength : Int
  interval : Int
  breaks : List Int
deriving DecidableEq, Repr

/-- The loop state of `main`: the batches submitted so far and the current
working list `frameNumbers` (kept parallel to `batchImageCameraPairs`). -/
structure SchedState where
  batches : List (List Int)
  cur : List Int
deriving DecidableEq, Repr

/-- Embeds one iteration of the `for i in range(0, numFiles)` loop of `main`
(lines 355-407) acting on the frame number of file `i`: skip frames outside
the user range (Python truthiness: a zero `startFrame`/`stopFrame` disables
the corresponding check), append the frame, and either keep accumulating or
flush the batch, seeding the next batch with the trailing
`interval` frames (`batchImageCameraPairs[-interval:]`) unless the flush was
caused by a break frame. -/
def schedStep (p : SchedParams) (st : SchedState) (frameNumber : Int) : SchedState :=
  if p.startFrame ≠ 0 ∧ frameNumber < p.startFrame then st
  else if p.stopFrame ≠ 0 ∧ p.stopFrame < frameNumber then st
  else
    let cur2 := st.cur ++ [frameNumber]
    let hitBreakFrame := frameNumber ∈ p.breaks
    if (cur2.length : Int) < p.bundleLength ∧ frameNumber < p.stopFrame ∧ ¬ hitBreakFrame then
      { st with cur := cur2 }
    else
      { batches := st.batches ++ [cur2],
        cur := if hitBreakFrame then [] else pySliceFrom (-p.interval) cur2 }

/-- The batching loop of `main` over the per-file frame numbers. -/
def schedLoop (p : SchedParams) : SchedState → List Int → SchedState
  | st, [] => st
  | st, f :: rest => schedLoop p (schedStep p st f) rest

/-- The batches (as frame-number lists) submitted by one run of the batching
loop of `main`, starting from empty accumulators. -/
def scheduleBatches (p : SchedParams) (frames : List Int) : List (List Int) :=
  (schedLoop p ⟨[], []⟩ frames).batches

/-- The number of emitted batches a frame belongs to. -/
def batchAppearances (f : Int) (batches : List (List Int)) : Nat :=
  (batches.filter (fun b => f ∈ b)).length

/-- Holds when the earlier of two consecutive batches ends in a break frame
(so no frames are carried over), or its trailing `interval`-frame slice is
carried over as the leading segment of the later batch. -/
def linkOK (p : SchedParams) (b bNext : List Int) : Prop :=
  (∃ f, b.getLast? = some f ∧ f ∈ p.breaks) ∨
    bNext.take (pySliceFrom (-p.interval) b).length = pySliceFrom (-p.interval) b

/-- Every pair of consecutive batches in the list satisfies `linkOK`. -/
def chainOK (p : SchedParams) : List (List Int) → Prop
  | [] => True
  | [_] => True
  | b :: bNext :: rest => linkOK p b bNext ∧ chainOK p (bNext :: rest)

/-- The pending working batch is linked to the last emitted batch. -/
def lastLink (p : SchedParams) (batches : List (List Int)) (cur : List Int) : Prop :=
  match batches.getLast? with
  | none => True
  | some b => linkOK p b cur

/-! ## Fetch retry loop (`fetch_icebridge_data.py`, `main`, lines 616-634) -/

/-- Embeds the `for attempt in range(10)` retry loop of `main`, abstracting
`doFetch` as the per-attempt failure count `f`.  `remaining` counts the loop
iterations still permitted, `attempt` the iterations already performed, and
`prev` is `numPrevFailed`.  Returns the exit code together with the number of
fetch/validate cycles that ran. -/
def fetchRetryAux (f : Nat → Int) : Nat → Nat → Int → Int × Nat
  | 0, attempt, _ => (-1, attempt)
  | remaining+1, attempt, prev =>
    let numFailed := f attempt
    if numFailed = 0 then (0, attempt + 1)
    else if numFailed = prev then (-1, attempt + 1)
    else fetchRetryAux f remaining (attempt + 1) numFailed

/-- The retry loop as `main` runs it: ten permitted attempts, starting with
`numPrevFailed = -1`. -/
def fetchRetryMain (f : Nat → Int) : Int × Nat :=
  fetchRetryAux f 10 0 (-1)

/-! ## Batched transport (`icebridge_common.py`, `fetchFilesInBatches`) -/

/-- The module constant `MAX_IN_ONE_CALL = 100` of `fetch_icebridge_data.py`
(line 51). -/
def MAX_IN_ONE_CALL : Nat := 100

/-- Embeds the `for fileIter in range(numFiles)` loop of `fetchFilesInBatches`
(`icebridge_common.py` lines 360-387) over parallel (local file, url) pairs.
`present` is `fileNonEmpty` on the local path; `acc` holds the urls already
appended to the pending curl command.  A transport invocation (one batch,
returned as its url list) fires once the accumulated count reaches
`batchSize` or the last pair has been examined, provided the count is
positive. -/
def fetchBatchesAux (present : α → Bool) (batchSize : Nat) :
    List (α × β) → List β → List (List β)
  | [], _ => []
  | (filePath, url) :: rest, acc =>
    let acc2 := if present filePath then acc else acc ++ [url]
    if (batchSize ≤ acc2.length ∨ rest.isEmpty) ∧ 0 < acc2.length then
      acc2 :: fetchBatchesAux present batchSize rest []
    else fetchBatchesAux present batchSize rest acc2

/-- The list of transport invocations `fetchFilesInBatches` performs, each
given by the url list of one accumulated curl command. -/
def fetchFilesInBatches (present : α → Bool) (batchSize : Nat)
    (pairs : List (α × β)) : List (List β) :=
  fetchBatchesAux present batchSize pairs []

/-! ## Index file model (`fetch_icebridge_data.py`) -/

/-- Value of a decimal digit character, as used when parsing an `int`. -/
def digitVal (c : Char) : Nat := c.toNat - 48

/-- Python `str.strip` from the left, for the ASCII whitespace the index
lines can contain. -/
def ltrim (l : List Char) : List Char := l.dropWhile (fun c => c.isWhitespace)

/-- Python `str.strip` from the right. -/
def rtrim (l : List Char) : List Char := (ltrim l.reverse).reverse

/-- Python `str.strip` on a line modelled as a character list. -/
def pyStrip (l : List Char) : List Char := rtrim (ltrim l)

/-- Python `str.split(sep)` for a one-character separator: always returns at
least one (possibly empty) field. -/
def splitChar (c : Char) : List Char → List (List Char)
  | [] => [[]]
  | x :: xs =>
    if x = c then [] :: splitChar c xs
    else
      match splitChar c xs with
      | [] => [[x]]
      | p :: ps => (x :: p) :: ps

/-- Python `int(s)` restricted to the non-negative decimal forms the index
file holds: surrounding whitespace is ignored, and a string that is not a
non-empty digit run raises `ValueError`. -/
def pyIntNat (l : List Char) : Except PyErr Nat :=
  let t := pyStrip l
  if t ≠ [] ∧ t.all (fun c => c.isDigit) then
    .ok (t.foldl (fun acc c => 10 * acc + digitVal c) 0)
  else .error .valueErr

/-- Decimal digits of `n`, most significant first, accumulated onto `acc`.
The fuel only bounds the recursion; `natToChars` supplies enough. -/
def natToCharsAux : Nat → Nat → List Char → List Char
  | 0, _, acc => acc
  | fuel+1, n, acc =>
    if n < 10 then Nat.digitChar (n % 10) :: acc
    else natToCharsAux fuel (n / 10) (Nat.digitChar (n % 10) :: acc)

/-- Python `str(n)` for a non-negative integer. -/
def natToChars (n : Nat) : List Char := natToCharsAux (n + 1) n []

/-- Python dict assignment `d[k] = v`: replace the value if the key is
present, otherwise append a fresh entry. -/
def dictInsert (d : List (Nat × α)) (k : Nat) (v : α) : List (Nat × α) :=
  if d.any (fun q => q.1 == k) then d.map (fun q => if q.1 == k then (k, v) else q)
  else d ++ [(k, v)]

/-- Python dict lookup `d.get(k)`. -/
def dictLookup (d : List (Nat × α)) (k : Nat) : Option α :=
  (d.find? (fun q => q.1 == k)).map (fun q => q.2)

/-- One line the combined index writer emits for an entry
(`fetch_icebridge_data.py` line 362):
`str(frame) + ', ' + frameDict[frame] + ', ' + urlDict[frame]`. -/
def indexLineOf (e : Nat × List Char × List Char) : List Char :=
  natToChars e.1 ++ [',', ' '] ++ e.2.1 ++ [',', ' '] ++ e.2.2

/-- The lines `fetchAndParseIndexFile` writes for the (frame-sorted) entries
of its combined frame and url dicts (lines 360-362). -/
def writeIndex (entries : List (Nat × List Char × List Char)) : List (List Char) :=
  entries.map indexLineOf

/-- Embeds the `for line in f` loop of `readIndexFile`
(`fetch_icebridge_data.py` lines 105-119): strip and split each line on
commas, raise on fewer than three fields, parse the frame number, and store
the stripped second and third fields in the frame and url dicts. -/
def readIndexAux :
    List (List Char) → List (Nat × List Char) → List (Nat × List Char) →
    Except PyErr (List (Nat × List Char) × List (Nat × List Char))
  | [], frameDict, urlDict => .ok (frameDict, urlDict)
  | line :: rest, frameDict, urlDict =>
    let parts := splitChar ',' (pyStrip line)
    if parts.length ≤ 2 then .error .invalidIndex
    else
      match pyIntNat (parts.headD []) with
      | .error e => .error e
      | .ok frameNumber =>
        readIndexAux rest
          (dictInsert frameDict frameNumber (pyStrip (parts.getD 1 [])))
          (dictInsert urlDict frameNumber (pyStrip (parts.getD 2 [])))

/-- `readIndexFile` on the parsed index file modelled as its list of lines. -/
def readIndexFile (lines : List (List Char)) :
    Except PyErr (List (Nat × List Char) × List (Nat × List Char)) :=
  readIndexAux lines [] []

/-- Embeds the `try: readIndexFile / except: refetch and read again` block of
`doFetch` (`fetch_icebridge_data.py` lines 393-400).  The rebuild of the
index by `fetchAndParseIndexFile` is abstracted as a function of the
`refetchIndex` flag the handler sets to `True`. -/
def doFetchReadIndex (firstIndex : List (List Char))
    (rebuild : Bool → List (List Char)) :
    Except PyErr (List (Nat × List Char) × List (Nat × List Char)) :=
  match readIndexFile firstIndex with
  | .ok d => .ok d
  | .error _ => readIndexFile (rebuild true)

/-- A field (filename or source-location) is round-trip safe when it contains
no comma and survives stripping unchanged on either side. -/
def goodField (l : List Char) : Bool :=
  l.all (fun c => c != ',') && (ltrim l == l) && (rtrim l == l)

/-! ## Next-day merge (`fetch_icebridge_data.py`, lines 351-357) -/

/-- Embeds one step of the `for frame in sorted(localFrameDict.keys())`
append loop: an entry of the second day is added only when its frame is not
already a key of the combined dict. -/
def mergeStep (d : List (Nat × α)) (kv : Nat × α) : List (Nat × α) :=
  if d.any (fun q => q.1 == kv.1) then d else d ++ [kv]

/-- Merging one day's local index entries into the combined index. -/
def mergeDayIndex (d : List (Nat × α)) (localEntries : List (Nat × α)) :
    List (Nat × α) :=
  localEntries.foldl mergeStep d

/-! ## Hemisphere check (`fetch_icebridge_data.py`, `hasGoodLat` and
`doFetch` lines 483-496) -/

/-- Embeds `hasGoodLat` (lines 121-125). -/
def hasGoodLat (latitude : ℚ) (isSouth : Bool) : Bool :=
  if (isSouth = true ∧ latitude < 0) ∨ (isSouth = false ∧ 0 < latitude) then true
  else false

/-- Embeds the latitude sanity check of `doFetch` on an existing XML sidecar
(lines 483-496): when the declared latitude fails `hasGoodLat`, the XML file
is wiped, and its companion raster is wiped when it exists.  Returns
(xml wiped, image wiped). -/
def xmlLatValidation (latitude : ℚ) (isSouth : Bool) (imageExists : Bool) :
    Bool × Bool :=
  if hasGoodLat latitude isSouth then (false, false) else (true, imageExists)

/-! ## Supporting lemmas -/

theorem dictLookup_append_left (d e : List (Nat × α)) (k : Nat)
    (h : (dictLookup d k).isSome = true) :
    dictLookup (d ++ e) k = dictLookup d k := by
  unfold dictLookup at *
  cases hf : d.find? (fun q => q.1 == k) with
  | none => rw [hf] at h; simp at h
  | some v => rw [List.find?_append, hf]; rfl

theorem mergeStep_keeps (d : List (Nat × α)) (kv : Nat × α) (k : Nat)
    (h : (dictLookup d k).isSome = true) :
    dictLookup (mergeStep d kv) k = dictLookup d k := by
  unfold mergeStep
  split
  · rfl
  · exact dictLookup_append_left d [kv] k h

theorem fetchRetryAux_cycles_le (f : Nat → Int) :
    ∀ remaining attempt prev, (fetchRetryAux f remaining attempt prev).2 ≤ attempt + remaining := by
  intro remaining
  induction remaining with
  | zero => intro attempt prev; simp [fetchRetryAux]
  | succ r ih =>
    intro attempt prev
    rw [fetchRetryAux]
    split
    · simp
    · split
      · simp
      · have := ih (attempt + 1) (f attempt)
        omega

theorem fetchRetry_run_through (f : Nat → Int) (hf : ∀ j, 0 ≤ f j) :
    ∀ k, k ≤ 10 → (∀ j, j < k → f j ≠ 0 ∧ (1 ≤ j → f j ≠ f (j-1))) →
      fetchRetryMain f = fetchRetryAux f (10 - k) k (if k = 0 then -1 else f (k-1)) := by
  intro k
  induction k with
  | zero => intro _ _; rfl
  | succ k ih =>
    intro hk hfree
    rw [ih (by omega) (fun j hj => hfree j (by omega))]
    have h10 : 10 - k = (10 - (k+1)) + 1 := by omega
    rw [h10, fetchRetryAux]
    rw [if_neg (hfree k (by omega)).1]
    have hprev : f k ≠ if k = 0 then -1 else f (k-1) := by
      rcases Nat.eq_zero_or_pos k with h0 | h0
      · subst h0
        simp only [if_pos]
        have := hf 0
        omega
      · rw [if_neg (by omega)]
        exact (hfree k (by omega)).2 (by omega)
    rw [if_neg hprev]
    simp

theorem area_pos_of_intersect_pos (thisBox lastBox : Bbox)
    (h : 0 < getBboxArea (intersectBox thisBox lastBox)) : 0 < getBboxArea thisBox := by
  simp only [getBboxArea, intersectBox] at h ⊢
  split at h
  · exact absurd h (lt_irrefl 0)
  · rename_i hng
    push_neg at hng
    obtain ⟨hw, hh⟩ := hng
    have hwpos : 0 < min lastBox.maxX thisBox.maxX - max lastBox.minX thisBox.minX := by
      rcases hw.lt_or_eq with h0 | h0
      · exact h0
      · rw [← h0, zero_mul] at h; exact absurd h (lt_irrefl 0)
    have hhpos : 0 < min lastBox.maxY thisBox.maxY - max lastBox.minY thisBox.minY := by
      rcases hh.lt_or_eq with h0 | h0
      · exact h0
      · rw [← h0, mul_zero] at h; exact absurd h (lt_irrefl 0)
    have htw : 0 < thisBox.maxX - thisBox.minX := by
      have h1 : min lastBox.maxX thisBox.maxX ≤ thisBox.maxX := min_le_right _ _
      have h2 : thisBox.minX ≤ max lastBox.minX thisBox.minX := le_max_right _ _
      linarith
    have hth : 0 < thisBox.maxY - thisBox.minY := by
      have h1 : min lastBox.maxY thisBox.maxY ≤ thisBox.maxY := min_le_right _ _
      have h2 : thisBox.minY ≤ max lastBox.minY thisBox.minY := le_max_right _ _
      linarith
    rw [if_neg (by push_neg; exact ⟨le_of_lt htw, le_of_lt hth⟩)]
    exact mul_pos htw hth

theorem meanRatioAt_of_scan (bboxes : List Bbox) (frames : List Nat) (interval : Nat)
    (s : ℚ) (c : Nat) (brs1 : List Nat)
    (hlen : ¬ bboxes.length ≤ interval)
    (hsc : scanPairs interval (pairsAt bboxes frames interval) = .ok (s, c, brs1))
    (hc : ¬ c = 0) :
    meanRatioAt bboxes frames interval = .ok (s / (c : ℚ)) := by
  rw [meanRatioAt, if_neg hlen, hsc]
  dsimp only
  rw [if_neg hc]

theorem spacingLoop_ok (bboxes : List Bbox) (frames : List Nat) :
    ∀ fuel interval i m brs,
      spacingLoop bboxes frames fuel interval = .ok (i, m, brs) →
      interval ≤ i ∧ meanRatioAt bboxes frames i = .ok m ∧ m ≤ maxRatioBound ∧
      (∀ j, interval ≤ j → j < i →
        ∃ mj, meanRatioAt bboxes frames j = .ok mj ∧ maxRatioBound < mj) := by
  intro fuel
  induction fuel with
  | zero => intro interval i m brs h; simp [spacingLoop] at h
  | succ fuel ih =>
    intro interval i m brs h
    rw [spacingLoop] at h
    by_cases hlen : bboxes.length ≤ interval
    · rw [if_pos hlen] at h; simp at h
    · rw [if_neg hlen] at h
      cases hsc : scanPairs interval (pairsAt bboxes frames interval) with
      | error e => rw [hsc] at h; simp at h
      | ok t =>
        obtain ⟨s, c, brs1⟩ := t
        rw [hsc] at h
        dsimp only at h
        by_cases hc : c = 0
        · rw [if_pos hc] at h; simp at h
        · rw [if_neg hc] at h
          by_cases hgt : maxRatioBound < s / (c : ℚ)
          · rw [if_pos hgt] at h
            cases hrec : spacingLoop bboxes frames fuel (interval + 1) with
            | error e => rw [hrec] at h; simp at h
            | ok t2 =>
              obtain ⟨i2, m2, brs2⟩ := t2
              rw [hrec] at h
              dsimp only at h
              simp only [Except.ok.injEq, Prod.mk.injEq] at h
              obtain ⟨rfl, rfl, rfl⟩ := h
              obtain ⟨hle2, hmean2, hmle2, hall2⟩ := ih (interval + 1) i2 m2 brs2 hrec
              refine ⟨by omega, hmean2, hmle2, ?_⟩
              intro j hj1 hj2
              rcases Nat.eq_or_lt_of_le hj1 with hj | hj
              · subst hj
                exact ⟨s / (c : ℚ), meanRatioAt_of_scan bboxes frames interval s c brs1 hlen hsc hc, hgt⟩
              · exact hall2 j hj hj2
          · rw [if_neg hgt] at h
            simp only [Except.ok.injEq, Prod.mk.injEq] at h
            obtain ⟨rfl, rfl, rfl⟩ := h
            refine ⟨le_refl _, meanRatioAt_of_scan bboxes frames interval s c brs1 hlen hsc hc,
              not_lt.mp hgt, ?_⟩
            intro j hj1 hj2
            omega

theorem scanPairs_breaks_one :
    ∀ (l : List ((Nat × Bbox) × Bbox)) (s : ℚ) (c : Nat) (brs : List Nat),
      scanPairs 1 l = .ok (s, c, brs) →
      brs = l.filterMap
        (fun p => if getBboxArea (intersectBox p.1.2 p.2) ≤ 0 then some p.1.1 else none) := by
  intro l
  induction l with
  | nil =>
    intro s c brs h
    simp only [scanPairs, Except.ok.injEq, Prod.mk.injEq] at h
    obtain ⟨_, _, hb⟩ := h
    simp [← hb]
  | cons p rest ih =>
    intro s c brs h
    obtain ⟨⟨fr, tb⟩, lb⟩ := p
    rw [scanPairs] at h
    by_cases hz : getBboxArea tb = 0
    · rw [if_pos hz] at h; simp at h
    · rw [if_neg hz] at h
      cases hsc : scanPairs 1 rest with
      | error e => rw [hsc] at h; simp at h
      | ok t =>
        obtain ⟨s1, c1, brs1⟩ := t
        rw [hsc] at h
        dsimp only at h
        simp only [Except.ok.injEq, Prod.mk.injEq] at h
        obtain ⟨_, _, rfl⟩ := h
        have hrest := ih s1 c1 brs1 hsc
        by_cases hle : getBboxArea (intersectBox tb lb) ≤ 0
        · simp [List.filterMap_cons, hle, hrest]
        · simp [List.filterMap_cons, hle, hrest]

theorem scanPairs_breaks_ne_one (interval : Nat) (hne : interval ≠ 1) :
    ∀ (l : List ((Nat × Bbox) × Bbox)) (s : ℚ) (c : Nat) (brs : List Nat),
      scanPairs interval l = .ok (s, c, brs) → brs = [] := by
  intro l
  induction l with
  | nil =>
    intro s c brs h
    simp only [scanPairs, Except.ok.injEq, Prod.mk.injEq] at h
    exact h.2.2.symm
  | cons p rest ih =>
    intro s c brs h
    obtain ⟨⟨fr, tb⟩, lb⟩ := p
    rw [scanPairs] at h
    by_cases hz : getBboxArea tb = 0
    · rw [if_pos hz] at h; simp at h
    · rw [if_neg hz] at h
      cases hsc : scanPairs interval rest with
      | error e => rw [hsc] at h; simp at h
      | ok t =>
        obtain ⟨s1, c1, brs1⟩ := t
        rw [hsc] at h
        dsimp only at h
        simp only [Except.ok.injEq, Prod.mk.injEq] at h
        obtain ⟨_, _, rfl⟩ := h
        rw [if_neg (by simp [hne])]
        exact ih s1 c1 brs1 hsc

theorem spacingLoop_breaks_tail (bboxes : List Bbox) (frames : List Nat) :
    ∀ fuel interval, 2 ≤ interval →
      ∀ i m brs, spacingLoop bboxes frames fuel interval = .ok (i, m, brs) → brs = [] := by
  intro fuel
  induction fuel with
  | zero => intro interval _ i m brs h; simp [spacingLoop] at h
  | succ fuel ih =>
    intro interval h2 i m brs h
    rw [spacingLoop] at h
    by_cases hlen : bboxes.length ≤ interval
    · rw [if_pos hlen] at h; simp at h
    · rw [if_neg hlen] at h
      cases hsc : scanPairs interval (pairsAt bboxes frames interval) with
      | error e => rw [hsc] at h; simp at h
      | ok t =>
        obtain ⟨s, c, brs1⟩ := t
        rw [hsc] at h
        dsimp only at h
        by_cases hc : c = 0
        · rw [if_pos hc] at h; simp at h
        · rw [if_neg hc] at h
          have hbrs1 : brs1 = [] :=
            scanPairs_breaks_ne_one interval (by omega) _ s c brs1 hsc
          by_cases hgt : maxRatioBound < s / (c : ℚ)
          · rw [if_pos hgt] at h
            cases hrec : spacingLoop bboxes frames fuel (interval + 1) with
            | error e => rw [hrec] at h; simp at h
            | ok t2 =>
              obtain ⟨i2, m2, brs2⟩ := t2
              rw [hrec] at h
              dsimp only at h
              simp only [Except.ok.injEq, Prod.mk.injEq] at h
              rw [← h.2.2, hbrs1, ih (interval + 1) (by omega) i2 m2 brs2 hrec]
              rfl
          · rw [if_neg hgt] at h
            simp only [Except.ok.injEq, Prod.mk.injEq] at h
            rw [← h.2.2, hbrs1]

theorem mergeDay_keeps (d localEntries : List (Nat × α)) (k : Nat)
    (h : (dictLookup d k).isSome = true) :
    dictLookup (mergeDayIndex d localEntries) k = dictLookup d k := by
  induction localEntries generalizing d with
  | nil => rfl
  | cons kv rest ih =>
    show dictLookup (mergeDayIndex (mergeStep d kv) rest) k = dictLookup d k
    rw [ih (mergeStep d kv) (by rw [mergeStep_keeps d kv k h]; exact h)]
    exact mergeStep_keeps d kv k h

theorem fetchBatchesAux_join (present : α → Bool) (batchSize : Nat) (hbs : 1 ≤ batchSize) :
    ∀ (pairs : List (α × β)) (acc : List β), (pairs = [] → acc = []) → acc.length < batchSize →
      (fetchBatchesAux present batchSize pairs acc).flatten
        = acc ++ (pairs.filter (fun q => !present q.1)).map (fun q => q.2) := by
  intro pairs
  induction pairs with
  | nil =>
    intro acc hpa _
    rw [hpa rfl]
    simp [fetchBatchesAux]
  | cons q rest ih =>
    intro acc hpa hlen
    obtain ⟨fp, url⟩ := q
    rw [fetchBatchesAux]
    cases hp : present fp with
    | true =>
      simp only [hp, if_true]
      have hnb : ¬ batchSize ≤ acc.length := by omega
      cases rest with
      | nil =>
        by_cases hacc : 0 < acc.length
        · rw [if_pos ⟨Or.inr (by simp), hacc⟩]
          simp [fetchBatchesAux, List.filter_cons, hp]
        · rw [if_neg (fun hc => hacc hc.2)]
          have : acc = [] := by
            cases acc with
            | nil => rfl
            | cons a as => exact absurd (by simp) hacc
          subst this
          simp [fetchBatchesAux, List.filter_cons, hp]
      | cons r rs =>
        rw [if_neg (fun hc => by rcases hc.1 with h | h; exact hnb h; simp at h)]
        rw [ih acc (fun hc => by simp at hc) hlen]
        simp [List.filter_cons, hp]
    | false =>
      simp only [hp, Bool.false_eq_true, if_false]
      by_cases hflush : batchSize ≤ (acc ++ [url]).length ∨ rest.isEmpty
      · rw [if_pos ⟨hflush, by simp⟩]
        cases rest with
        | nil => simp [fetchBatchesAux, List.filter_cons, hp]
        | cons r rs =>
          rw [List.flatten_cons, ih [] (fun hc => rfl) (by simpa using hbs)]
          simp [List.filter_cons, hp]
      · rw [if_neg (fun hc => hflush hc.1)]
        push_neg at hflush
        rw [ih (acc ++ [url]) (fun hc => absurd hc.symm (by
          intro hn
          rw [← hn] at hflush
          simp at hflush)) (by simpa using hflush.1)]
        simp [List.filter_cons, hp]

theorem fetchBatchesAux_sizes (present : α → Bool) (batchSize : Nat) :
    ∀ (pairs : List (α × β)) (acc : List β), acc.length < batchSize →
      ∀ b ∈ fetchBatchesAux present batchSize pairs acc, b.length ≤ batchSize := by
  intro pairs
  induction pairs with
  | nil => intro acc _ b hb; simp [fetchBatchesAux] at hb
  | cons q rest ih =>
    intro acc hlen b hb
    obtain ⟨fp, url⟩ := q
    rw [fetchBatchesAux] at hb
    set a2 := (if present fp then acc else acc ++ [url]) with ha2
    have hle : a2.length ≤ acc.length + 1 := by
      rw [ha2]; split <;> simp
    by_cases hfl : (batchSize ≤ a2.length ∨ rest.isEmpty) ∧ 0 < a2.length
    · rw [if_pos hfl] at hb
      rcases List.mem_cons.mp hb with h | h
      · subst h; omega
      · exact ih [] (by simp; omega) b h
    · rw [if_neg hfl] at hb
      have hlt : a2.length < batchSize := by
        rcases Nat.lt_or_ge a2.length batchSize with h | h
        · exact h
        · by_cases h0 : 0 < a2.length
          · exact absurd ⟨Or.inl h, h0⟩ hfl
          · omega
      exact ih a2 hlt b hb

theorem linkOK_extend (p : SchedParams) (b c : List Int) (f : Int) (h : linkOK p b c) :
    linkOK p b (c ++ [f]) := by
  rcases h with h | h
  · exact Or.inl h
  · right
    have hlen : (pySliceFrom (-p.interval) b).length ≤ c.length := by
      have h2 := congrArg List.length h
      rw [List.length_take] at h2
      omega
    rw [List.take_append_of_le_length hlen, h]

theorem lastLink_extend (p : SchedParams) (bs : List (List Int)) (c : List Int) (f : Int)
    (h : lastLink p bs c) : lastLink p bs (c ++ [f]) := by
  cases hL : bs.getLast? with
  | none => simp only [lastLink, hL]
  | some b =>
    simp only [lastLink, hL] at h ⊢
    exact linkOK_extend p b c f h

theorem chainOK_concat (p : SchedParams) :
    ∀ (bs : List (List Int)) (x : List Int),
      chainOK p (bs ++ [x]) ↔ chainOK p bs ∧ lastLink p bs x := by
  intro bs
  induction bs with
  | nil => intro x; simp [chainOK, lastLink]
  | cons b rest ih =>
    intro x
    cases rest with
    | nil => simp [chainOK, lastLink, List.getLast?_singleton]
    | cons b2 rest2 =>
      have hLHS : ((b :: b2 :: rest2) ++ [x]) = b :: ((b2 :: rest2) ++ [x]) := by simp
      rw [hLHS]
      have h1 : chainOK p (b :: ((b2 :: rest2) ++ [x]))
          = (linkOK p b b2 ∧ chainOK p ((b2 :: rest2) ++ [x])) := by
        rw [List.cons_append]
        rfl
      rw [h1, ih x]
      have h2 : chainOK p (b :: b2 :: rest2) = (linkOK p b b2 ∧ chainOK p (b2 :: rest2)) := rfl
      rw [h2]
      unfold lastLink
      rw [List.getLast?_cons_cons]
      tauto

theorem schedStep_chain (p : SchedParams) (st : SchedState) (f : Int)
    (h : chainOK p st.batches ∧ lastLink p st.batches st.cur) :
    chainOK p (schedStep p st f).batches ∧
      lastLink p (schedStep p st f).batches (schedStep p st f).cur := by
  rw [schedStep]
  dsimp only
  split
  · exact h
  · split
    · exact h
    · split
      · exact ⟨h.1, lastLink_extend p st.batches st.cur f h.2⟩
      · constructor
        · exact (chainOK_concat p st.batches (st.cur ++ [f])).mpr
            ⟨h.1, lastLink_extend p st.batches st.cur f h.2⟩
        · simp only [lastLink, List.getLast?_concat]
          by_cases hbk : f ∈ p.breaks
          · rw [if_pos hbk]
            exact Or.inl ⟨f, List.getLast?_concat st.cur, hbk⟩
          · rw [if_neg hbk]
            exact Or.inr (List.take_length _)

theorem schedLoop_chain (p : SchedParams) :
    ∀ (frames : List Int) (st : SchedState),
      chainOK p st.batches ∧ lastLink p st.batches st.cur →
      chainOK p (schedLoop p st frames).batches ∧
        lastLink p (schedLoop p st frames).batches (schedLoop p st frames).cur := by
  intro frames
  induction frames with
  | nil => intro st h; exact h
  | cons f rest ih =>
    intro st h
    rw [schedLoop]
    exact ih (schedStep p st f) (schedStep_chain p st f h)

theorem schedLoop_append (p : SchedParams) :
    ∀ (l1 l2 : List Int) (st : SchedState),
      schedLoop p st (l1 ++ l2) = schedLoop p (schedLoop p st l1) l2 := by
  intro l1
  induction l1 with
  | nil => intro l2 st; rfl
  | cons f rest ih =>
    intro l2 st
    rw [List.cons_append, schedLoop, schedLoop]
    exact ih l2 (schedStep p st f)

theorem schedStep_mem (p : SchedParams) (st : SchedState) (f : Int)
    (h1 : ¬(p.startFrame ≠ 0 ∧ f < p.startFrame))
    (h2 : ¬(p.stopFrame ≠ 0 ∧ p.stopFrame < f)) (x : Int) :
    (x ∈ (schedStep p st f).batches.flatten ∨ x ∈ (schedStep p st f).cur) ↔
      (x ∈ st.batches.flatten ∨ x ∈ st.cur ∨ x = f) := by
  rw [schedStep, if_neg h1, if_neg h2]
  dsimp only
  have hmem2 : ∀ y : Int, y ∈ st.cur ++ [f] ↔ y ∈ st.cur ∨ y = f := by
    intro y; simp
  split
  · dsimp only
    rw [hmem2 x]
  · dsimp only
    rw [List.flatten_append]
    constructor
    · rintro (hx | hx)
      · rcases List.mem_append.mp hx with hx | hx
        · exact Or.inl hx
        · have hx2 : x ∈ st.cur ++ [f] := by simpa using hx
          rcases (hmem2 x).mp hx2 with h | h
          · exact Or.inr (Or.inl h)
          · exact Or.inr (Or.inr h)
      · have hx2 : x ∈ st.cur ++ [f] := by
          rcases (show x ∈ ([] : List Int) ∨ x ∈ pySliceFrom (-p.interval) (st.cur ++ [f]) from by
            revert hx; split <;> intro hx
            · exact Or.inl hx
            · exact Or.inr hx) with h | h
          · simp at h
          · unfold pySliceFrom at h
            revert h; split <;> intro h <;> exact List.mem_of_mem_drop h
        rcases (hmem2 x).mp hx2 with h | h
        · exact Or.inr (Or.inl h)
        · exact Or.inr (Or.inr h)
    · rintro (hx | hx | hx)
      · exact Or.inl (List.mem_append.mpr (Or.inl hx))
      · refine Or.inl (List.mem_append.mpr (Or.inr ?_))
        simp only [List.flatten, List.flatten_nil, List.append_nil]
        exact (hmem2 x).mpr (Or.inl hx)
      · refine Or.inl (List.mem_append.mpr (Or.inr ?_))
        simp only [List.flatten, List.flatten_nil, List.append_nil]
        exact (hmem2 x).mpr (Or.inr hx)

theorem schedLoop_mem (p : SchedParams) :
    ∀ (frames : List Int) (st : SchedState),
      (∀ f ∈ frames,
        ¬(p.startFrame ≠ 0 ∧ f < p.startFrame) ∧ ¬(p.stopFrame ≠ 0 ∧ p.stopFrame < f)) →
      ∀ x, (x ∈ (schedLoop p st frames).batches.flatten ∨ x ∈ (schedLoop p st frames).cur) ↔
        (x ∈ st.batches.flatten ∨ x ∈ st.cur ∨ x ∈ frames) := by
  intro frames
  induction frames with
  | nil => intro st _ x; simp [schedLoop]
  | cons f rest ih =>
    intro st hr x
    rw [schedLoop]
    rw [ih (schedStep p st f) (fun g hg => hr g (List.mem_cons_of_mem f hg)) x]
    have hf := hr f (List.mem_cons_self f rest)
    have hstep := schedStep_mem p st f hf.1 hf.2 x
    simp only [List.mem_cons]
    tauto

theorem schedStep_flush_cur_subset (p : SchedParams) (st : SchedState) (f : Int)
    (h1 : ¬(p.startFrame ≠ 0 ∧ f < p.startFrame))
    (h2 : ¬(p.stopFrame ≠ 0 ∧ p.stopFrame < f))
    (hstop : p.stopFrame ≤ f) :
    ∀ x ∈ (schedStep p st f).cur, x ∈ (schedStep p st f).batches.flatten := by
  intro x hx
  rw [schedStep, if_neg h1, if_neg h2] at hx ⊢
  dsimp only at hx ⊢
  rw [if_neg (fun hc => absurd hc.2.1 (not_lt.mpr hstop))] at hx ⊢
  dsimp only at hx ⊢
  have hx2 : x ∈ st.cur ++ [f] := by
    revert hx; split <;> intro hx
    · simp at hx
    · unfold pySliceFrom at hx
      revert hx; split <;> intro hx <;> exact List.mem_of_mem_drop hx
  rw [List.flatten_append]
  refine List.mem_append.mpr (Or.inr ?_)
  simp only [List.flatten, List.flatten_nil, List.append_nil]
  exact hx2

theorem digit_not_ws (c : Char) (h : c.isDigit = true) : c.isWhitespace = false := by
  simp only [Char.isWhitespace, Bool.or_eq_false_iff, decide_eq_false_iff_not]
  refine ⟨⟨⟨?_, ?_⟩, ?_⟩, ?_⟩ <;> rintro rfl <;> revert h <;> decide

theorem digit_ne_comma (c : Char) (h : c.isDigit = true) : ¬ c = ',' := by
  rintro rfl; revert h; decide

theorem digitChar_lt10 :
    ∀ m, m < 10 → (Nat.digitChar m).isDigit = true ∧ digitVal (Nat.digitChar m) = m := by
  decide

theorem natToCharsAux_append :
    ∀ (fuel n : Nat) (acc : List Char), n < fuel →
      natToCharsAux fuel n acc = natToCharsAux fuel n [] ++ acc := by
  intro fuel
  induction fuel with
  | zero => intro n acc h; omega
  | succ fuel ih =>
    intro n acc h
    rw [natToCharsAux, natToCharsAux]
    by_cases h10 : n < 10
    · rw [if_pos h10, if_pos h10]
      rfl
    · rw [if_neg h10, if_neg h10]
      have hlt : n / 10 < fuel := by
        have := Nat.div_lt_self (by omega : 0 < n) (by omega : 1 < 10)
        omega
      rw [ih (n / 10) (Nat.digitChar (n % 10) :: acc) hlt,
          ih (n / 10) [Nat.digitChar (n % 10)] hlt]
      simp

theorem natToCharsAux_fuel :
    ∀ (n fuel1 fuel2 : Nat), n < fuel1 → n < fuel2 →
      natToCharsAux fuel1 n [] = natToCharsAux fuel2 n [] := by
  intro n
  induction n using Nat.strong_induction_on with
  | _ n ih =>
    intro fuel1 fuel2 h1 h2
    cases fuel1 with
    | zero => omega
    | succ f1 =>
      cases fuel2 with
      | zero => omega
      | succ f2 =>
        rw [natToCharsAux, natToCharsAux]
        by_cases h10 : n < 10
        · rw [if_pos h10, if_pos h10]
        · rw [if_neg h10, if_neg h10]
          have hlt : n / 10 < n := Nat.div_lt_self (by omega) (by omega)
          rw [natToCharsAux_append f1 (n / 10) _ (by omega),
              natToCharsAux_append f2 (n / 10) _ (by omega),
              ih (n / 10) hlt f1 f2 (by omega) (by omega)]

theorem natToChars_low (n : Nat) (h : n < 10) :
    natToChars n = [Nat.digitChar (n % 10)] := by
  rw [natToChars, natToCharsAux, if_pos h]

theorem natToChars_high (n : Nat) (h : 10 ≤ n) :
    natToChars n = natToChars (n / 10) ++ [Nat.digitChar (n % 10)] := by
  have hlt : n / 10 < n := Nat.div_lt_self (by omega) (by omega)
  rw [natToChars, natToCharsAux, if_neg (by omega),
      natToCharsAux_append n (n / 10) _ (by omega),
      natToCharsAux_fuel (n / 10) n (n / 10 + 1) (by omega) (by omega)]
  rfl

theorem natToChars_all_digit : ∀ n : Nat, (natToChars n).all (fun c => c.isDigit) = true := by
  intro n
  induction n using Nat.strong_induction_on with
  | _ n ih =>
    by_cases h10 : n < 10
    · rw [natToChars_low n h10]
      simp [(digitChar_lt10 (n % 10) (by omega)).1]
    · rw [natToChars_high n (by omega), List.all_append]
      have hlt : n / 10 < n := Nat.div_lt_self (by omega) (by omega)
      simp [ih (n / 10) hlt, (digitChar_lt10 (n % 10) (by omega)).1]

theorem natToChars_ne_nil (n : Nat) : natToChars n ≠ [] := by
  by_cases h10 : n < 10
  · rw [natToChars_low n h10]; simp
  · rw [natToChars_high n (by omega)]; simp

theorem parse_natToChars :
    ∀ n : Nat, (natToChars n).foldl (fun acc c => 10 * acc + digitVal c) 0 = n := by
  intro n
  induction n using Nat.strong_induction_on with
  | _ n ih =>
    by_cases h10 : n < 10
    · rw [natToChars_low n h10]
      simp only [List.foldl_cons, List.foldl_nil]
      rw [(digitChar_lt10 (n % 10) (by omega)).2]
      omega
    · rw [natToChars_high n (by omega), List.foldl_append]
      have hlt : n / 10 < n := Nat.div_lt_self (by omega) (by omega)
      rw [ih (n / 10) hlt]
      simp only [List.foldl_cons, List.foldl_nil]
      rw [(digitChar_lt10 (n % 10) (by omega)).2]
      omega

theorem ltrim_cons_not_ws (c : Char) (l : List Char) (h : c.isWhitespace = false) :
    ltrim (c :: l) = c :: l := by
  simp [ltrim, List.dropWhile_cons, h]

theorem ltrim_cons_ws (c : Char) (l : List Char) (h : c.isWhitespace = true) :
    ltrim (c :: l) = ltrim l := by
  simp [ltrim, List.dropWhile_cons, h]

theorem rtrim_concat_not_ws (c : Char) (l : List Char) (h : c.isWhitespace = false) :
    rtrim (l ++ [c]) = l ++ [c] := by
  rw [rtrim, List.reverse_append]
  simp only [List.reverse_cons, List.reverse_nil, List.nil_append, List.singleton_append]
  rw [ltrim_cons_not_ws c l.reverse h]
  simp

theorem rtrim_concat_ws (c : Char) (l : List Char) (h : c.isWhitespace = true) :
    rtrim (l ++ [c]) = rtrim l := by
  rw [rtrim, rtrim, List.reverse_append]
  simp only [List.reverse_cons, List.reverse_nil, List.nil_append, List.singleton_append]
  rw [ltrim_cons_ws c l.reverse h]

theorem length_ltrim_le (l : List Char) : (ltrim l).length ≤ l.length := by
  induction l with
  | nil => simp [ltrim]
  | cons c cs ih =>
    simp only [ltrim, List.dropWhile_cons] at *
    split
    · exact le_trans ih (Nat.le_succ _)
    · simp

theorem length_rtrim_le (l : List Char) : (rtrim l).length ≤ l.length := by
  rw [rtrim]
  have := length_ltrim_le l.reverse
  simp only [List.length_reverse] at *
  omega

theorem rtrim_self_last_not_ws (l : List Char) (L : List Char) (b : Char)
    (hl : l = L ++ [b]) (h : rtrim l = l) : b.isWhitespace = false := by
  by_contra hws
  have hws2 : b.isWhitespace = true := by
    cases hb : b.isWhitespace
    · exact absurd hb hws
    · rfl
  rw [hl, rtrim_concat_ws b L hws2] at h
  have h1 := length_rtrim_le L
  have h2 := congrArg List.length h
  simp only [List.length_append, List.length_cons, List.length_nil] at h2
  omega

theorem pyStrip_digits (l : List Char) (hne : l ≠ [])
    (hd : l.all (fun c => c.isDigit) = true) : pyStrip l = l := by
  have hlt : ltrim l = l := by
    cases l with
    | nil => rfl
    | cons c cs =>
      have hc : c.isDigit = true := by
        simp only [List.all_cons, Bool.and_eq_true] at hd
        exact hd.1
      exact ltrim_cons_not_ws c cs (digit_not_ws c hc)
  rw [pyStrip, hlt]
  rcases List.eq_nil_or_concat l with h | ⟨L, b, h⟩
  · exact absurd h hne
  · rw [List.concat_eq_append] at h
    have hb : b.isDigit = true := by
      rw [h, List.all_append] at hd
      simp only [List.all_cons, List.all_nil, Bool.and_eq_true] at hd
      exact hd.2.1
    rw [h]
    exact rtrim_concat_not_ws b L (digit_not_ws b hb)

theorem pyIntNat_natToChars (n : Nat) : pyIntNat (natToChars n) = .ok n := by
  rw [pyIntNat]
  rw [pyStrip_digits (natToChars n) (natToChars_ne_nil n) (natToChars_all_digit n)]
  rw [if_pos ⟨natToChars_ne_nil n, natToChars_all_digit n⟩]
  rw [parse_natToChars n]

theorem splitChar_nosep (c : Char) :
    ∀ l : List Char, (∀ x ∈ l, ¬ x = c) → splitChar c l = [l] := by
  intro l
  induction l with
  | nil => intro _; rfl
  | cons x xs ih =>
    intro h
    rw [splitChar, if_neg (h x (List.mem_cons_self x xs)),
        ih (fun y hy => h y (List.mem_cons_of_mem x hy))]

theorem splitChar_sep_append (c : Char) :
    ∀ (a b : List Char), (∀ x ∈ a, ¬ x = c) →
      splitChar c (a ++ c :: b) = a :: splitChar c b := by
  intro a
  induction a with
  | nil =>
    intro b _
    rw [List.nil_append, splitChar, if_pos rfl]
  | cons x xs ih =>
    intro b h
    rw [List.cons_append, splitChar, if_neg (h x (List.mem_cons_self x xs)),
        ih b (fun y hy => h y (List.mem_cons_of_mem x hy))]

theorem natToChars_no_comma (n : Nat) : ∀ x ∈ natToChars n, ¬ x = ',' := by
  intro x hx
  have := natToChars_all_digit n
  rw [List.all_eq_true] at this
  exact digit_ne_comma x (this x hx)

theorem indexLine_fields (f : Nat) (n u : List Char)
    (hn : goodField n = true) (hu : goodField u = true) :
    (splitChar ',' (pyStrip (indexLineOf (f, n, u)))).length = 3 ∧
    pyIntNat ((splitChar ',' (pyStrip (indexLineOf (f, n, u)))).headD []) = .ok f ∧
    pyStrip ((splitChar ',' (pyStrip (indexLineOf (f, n, u)))).getD 1 []) = n ∧
    pyStrip ((splitChar ',' (pyStrip (indexLineOf (f, n, u)))).getD 2 []) = u := by
  have hn3 : ((∀ x ∈ n, ¬ x = ',') ∧ ltrim n = n) ∧ rtrim n = n := by
    simpa [goodField, Bool.and_eq_true] using hn
  have hu3 : ((∀ x ∈ u, ¬ x = ',') ∧ ltrim u = u) ∧ rtrim u = u := by
    simpa [goodField, Bool.and_eq_true] using hu
  have hnc : ∀ x ∈ n, ¬ x = ',' := hn3.1.1
  have huc : ∀ x ∈ u, ¬ x = ',' := hu3.1.1
  have hmidnc : ∀ x ∈ (' ' :: n), ¬ x = ',' := by
    intro x hx
    rcases List.mem_cons.mp hx with h | h
    · subst h; decide
    · exact hnc x h
  have hmiduc : ∀ x ∈ (' ' :: u), ¬ x = ',' := by
    intro x hx
    rcases List.mem_cons.mp hx with h | h
    · subst h; decide
    · exact huc x h
  have hmidn : pyStrip (' ' :: n) = n := by
    rw [pyStrip, ltrim_cons_ws ' ' n (by decide), hn3.1.2, hn3.2]
  have hmidu : pyStrip (' ' :: u) = u := by
    rw [pyStrip, ltrim_cons_ws ' ' u (by decide), hu3.1.2, hu3.2]
  obtain ⟨c, cs, hdg⟩ : ∃ c cs, natToChars f = c :: cs := by
    cases hh : natToChars f with
    | nil => exact absurd hh (natToChars_ne_nil f)
    | cons c cs => exact ⟨c, cs, rfl⟩
  have hcdig : c.isDigit = true := by
    have h2 := natToChars_all_digit f
    rw [hdg] at h2
    simp only [List.all_cons, Bool.and_eq_true] at h2
    exact h2.1
  have hline : indexLineOf (f, n, u)
      = natToChars f ++ (',' :: ' ' :: (n ++ (',' :: ' ' :: u))) := by
    simp [indexLineOf]
  have hlt : ltrim (indexLineOf (f, n, u)) = indexLineOf (f, n, u) := by
    rw [hline, hdg, List.cons_append]
    exact ltrim_cons_not_ws c _ (digit_not_ws c hcdig)
  rcases List.eq_nil_or_concat u with hu0 | ⟨L, b, hu0⟩
  · have hstrip : pyStrip (indexLineOf (f, n, u))
        = natToChars f ++ (',' :: ' ' :: (n ++ [','])) := by
      rw [pyStrip, hlt, hline, hu0]
      have he : natToChars f ++ (',' :: ' ' :: (n ++ (',' :: ' ' :: ([] : List Char))))
          = (natToChars f ++ (',' :: ' ' :: (n ++ [',']))) ++ [' '] := by simp
      rw [he, rtrim_concat_ws ' ' _ (by decide)]
      have he2 : natToChars f ++ (',' :: ' ' :: (n ++ [',']))
          = (natToChars f ++ (',' :: ' ' :: n)) ++ [','] := by simp
      rw [he2, rtrim_concat_not_ws ',' _ (by decide)]
    have hparts : splitChar ',' (pyStrip (indexLineOf (f, n, u)))
        = [natToChars f, ' ' :: n, []] := by
      rw [hstrip, splitChar_sep_append ',' (natToChars f) _ (natToChars_no_comma f)]
      have he3 : (' ' :: (n ++ [','])) = (' ' :: n) ++ ',' :: ([] : List Char) := by simp
      rw [he3, splitChar_sep_append ',' (' ' :: n) [] hmidnc]
      rfl
    rw [hparts]
    refine ⟨rfl, pyIntNat_natToChars f, hmidn, ?_⟩
    rw [hu0]
    rfl
  · rw [List.concat_eq_append] at hu0
    have hbnw : b.isWhitespace = false := rtrim_self_last_not_ws u L b hu0 hu3.2
    have hstrip : pyStrip (indexLineOf (f, n, u)) = indexLineOf (f, n, u) := by
      rw [pyStrip, hlt, hline]
      have he : natToChars f ++ (',' :: ' ' :: (n ++ (',' :: ' ' :: u)))
          = (natToChars f ++ (',' :: ' ' :: (n ++ (',' :: ' ' :: L)))) ++ [b] := by
        rw [hu0]; simp
      rw [he, rtrim_concat_not_ws b _ hbnw, ← he]
    have hparts : splitChar ',' (pyStrip (indexLineOf (f, n, u)))
        = [natToChars f, ' ' :: n, ' ' :: u] := by
      rw [hstrip, hline, splitChar_sep_append ',' (natToChars f) _ (natToChars_no_comma f)]
      have he3 : (' ' :: (n ++ (',' :: ' ' :: u))) = (' ' :: n) ++ ',' :: (' ' :: u) := by simp
      rw [he3, splitChar_sep_append ',' (' ' :: n) _ hmidnc,
          splitChar_nosep ',' (' ' :: u) hmiduc]
    rw [hparts]
    exact ⟨rfl, pyIntNat_natToChars f, hmidn, hmidu⟩

theorem dictInsert_fresh (d : List (Nat × α)) (k : Nat) (v : α)
    (h : ∀ q ∈ d, q.1 ≠ k) : dictInsert d k v = d ++ [(k, v)] := by
  have hc : d.any (fun q => q.1 == k) = false := by
    rw [List.any_eq_false]
    intro q hq
    simp [h q hq]
  rw [dictInsert, hc]
  simp

theorem readIndexAux_write (entries : List (Nat × List Char × List Char)) :
    ∀ (fd ud : List (Nat × List Char)),
      (∀ e ∈ entries, goodField e.2.1 = true ∧ goodField e.2.2 = true) →
      (∀ e ∈ entries, (∀ q ∈ fd, q.1 ≠ e.1) ∧ (∀ q ∈ ud, q.1 ≠ e.1)) →
      (entries.map Prod.fst).Nodup →
      readIndexAux (writeIndex entries) fd ud
        = .ok (fd ++ entries.map (fun e => (e.1, e.2.1)),
               ud ++ entries.map (fun e => (e.1, e.2.2))) := by
  induction entries with
  | nil => intro fd ud _ _ _; simp [writeIndex, readIndexAux]
  | cons e rest ih =>
    intro fd ud hgood hfresh hnodup
    obtain ⟨f, n, u⟩ := e
    have hg := hgood (f, n, u) (List.mem_cons_self _ _)
    obtain ⟨hlen3, hint, hn, hu⟩ := indexLine_fields f n u hg.1 hg.2
    rw [writeIndex, List.map_cons, readIndexAux]
    rw [if_neg (by rw [hlen3]; omega), hint]
    dsimp only
    rw [hn, hu]
    rw [dictInsert_fresh fd f n (fun q hq => (hfresh (f, n, u) (by simp)).1 q hq),
        dictInsert_fresh ud f u (fun q hq => (hfresh (f, n, u) (by simp)).2 q hq)]
    rw [List.map_cons] at hnodup
    have hnodup2 := List.nodup_cons.mp hnodup
    have hrg : ∀ e2 ∈ rest, goodField e2.2.1 = true ∧ goodField e2.2.2 = true :=
      fun e2 he2 => hgood e2 (List.mem_cons_of_mem _ he2)
    have hrf : ∀ e2 ∈ rest,
        (∀ q ∈ fd ++ [(f, n)], q.1 ≠ e2.1) ∧ (∀ q ∈ ud ++ [(f, u)], q.1 ≠ e2.1) := by
      intro e2 he2
      have hne : f ≠ e2.1 := by
        have hmem : e2.1 ∈ rest.map Prod.fst := List.mem_map_of_mem Prod.fst he2
        intro hc
        rw [← hc] at hmem
        exact hnodup2.1 hmem
      constructor
      · intro q hq
        rcases List.mem_append.mp hq with h1 | h1
        · exact (hfresh e2 (List.mem_cons_of_mem _ he2)).1 q h1
        · have : q = (f, n) := by simpa using h1
          rw [this]
          exact hne
      · intro q hq
        rcases List.mem_append.mp hq with h1 | h1
        · exact (hfresh e2 (List.mem_cons_of_mem _ he2)).2 q h1
        · have : q = (f, u) := by simpa using h1
          rw [this]
          exact hne
    rw [show writeIndex rest = rest.map indexLineOf from rfl] at *
    rw [ih (fd ++ [(f, n)]) (ud ++ [(f, u)]) hrg hrf hnodup2.2]
    simp

theorem readIndexAux_short_line_error :
    ∀ (lines : List (List Char)) (fd ud : List (Nat × List Char)),
      (∃ l ∈ lines, (splitChar ',' (pyStrip l)).length ≤ 2) →
      ∃ e, readIndexAux lines fd ud = .error e := by
  intro lines
  induction lines with
  | nil => intro fd ud h; simp at h
  | cons line rest ih =>
    intro fd ud h
    rw [readIndexAux]
    by_cases hshort : (splitChar ',' (pyStrip line)).length ≤ 2
    · rw [if_pos hshort]
      exact ⟨.invalidIndex, rfl⟩
    · rw [if_neg hshort]
      have hrest : ∃ l ∈ rest, (splitChar ',' (pyStrip l)).length ≤ 2 := by
        rcases h with ⟨l, hl, hsl⟩
        rcases List.mem_cons.mp hl with h1 | h1
        · subst h1; exact absurd hsl hshort
        · exact ⟨l, h1, hsl⟩
      cases hint : pyIntNat ((splitChar ',' (pyStrip line)).headD []) with
      | error e => exact ⟨e, rfl⟩
      | ok fnum => exact ih _ _ hrest

/-! ## Claim theorems -/

/-- Claim C1: on every run of `getImageSpacing` that returns, the search
starts at interval 1 and increments while the mean ratio (over exactly the
pairs with positive intersection area, as `meanRatioAt` computes it) exceeds
0.8; the settled interval's mean ratio is at most 0.8, and the returned
interval is the settled one decremented by exactly one iff that mean ratio is
below 0.4 and the interval exceeds 1, with no further lower-bound check. -/
theorem spacing_interval_search_spec (bboxes : List Bbox) (frames : List Nat)
    (i : Nat) (brs : List Nat)
    (h : getImageSpacing bboxes frames = .ok (i, brs)) :
    ∃ i0 m, 1 ≤ i0 ∧ meanRatioAt bboxes frames i0 = .ok m ∧ m ≤ maxRatioBound ∧
      (∀ j, 1 ≤ j → j < i0 →
        ∃ mj, meanRatioAt bboxes frames j = .ok mj ∧ maxRatioBound < mj) ∧
      i = (if m < minRatioBound ∧ 1 < i0 then i0 - 1 else i0) := by
  rw [getImageSpacing] at h
  cases hrun : spacingLoop bboxes frames (bboxes.length + 1) 1 with
  | error e => rw [hrun] at h; simp at h
  | ok t =>
    obtain ⟨i0, m, brs0⟩ := t
    rw [hrun] at h
    dsimp only at h
    simp only [Except.ok.injEq, Prod.mk.injEq] at h
    obtain ⟨hi, hbrs⟩ := h
    obtain ⟨h1, hmean, hle, hall⟩ := spacingLoop_ok bboxes frames _ _ _ _ _ hrun
    exact ⟨i0, m, h1, hmean, hle, hall, hi.symm⟩

/-- Witness for C1 at two overlapping boxes: the automatic interval is 1 with
mean ratio 1/2. -/
theorem spacing_interval_search_spec_witness :
    getImageSpacing [⟨0, 10, 0, 1⟩, ⟨5, 15, 0, 1⟩] [0, 1] = .ok (1, []) ∧
    (∃ i0 m, 1 ≤ i0 ∧ meanRatioAt [⟨0, 10, 0, 1⟩, ⟨5, 15, 0, 1⟩] [0, 1] i0 = .ok m ∧
      m ≤ maxRatioBound ∧
      (∀ j, 1 ≤ j → j < i0 →
        ∃ mj, meanRatioAt [⟨0, 10, 0, 1⟩, ⟨5, 15, 0, 1⟩] [0, 1] j = .ok mj ∧
          maxRatioBound < mj) ∧
      1 = (if m < minRatioBound ∧ 1 < i0 then i0 - 1 else i0)) :=
  ⟨by decide, spacing_interval_search_spec _ _ 1 [] (by decide)⟩

/-- Claim C4: whenever `getImageSpacing` returns, its break list is exactly
the set of frames whose adjacent (interval-1) intersection area is zero or
negative, independently of the interval ultimately selected. -/
theorem breaks_only_at_interval_one (bboxes : List Bbox) (frames : List Nat)
    (i : Nat) (brs : List Nat)
    (h : getImageSpacing bboxes frames = .ok (i, brs)) :
    brs = adjacentBreaks bboxes frames := by
  rw [getImageSpacing] at h
  cases hrun : spacingLoop bboxes frames (bboxes.length + 1) 1 with
  | error e => rw [hrun] at h; simp at h
  | ok t =>
    obtain ⟨i0, m, brs0⟩ := t
    rw [hrun] at h
    dsimp only at h
    simp only [Except.ok.injEq, Prod.mk.injEq] at h
    obtain ⟨_, hbrs⟩ := h
    subst hbrs
    rw [spacingLoop] at hrun
    by_cases hlen : bboxes.length ≤ 1
    · rw [if_pos hlen] at hrun; simp at hrun
    · rw [if_neg hlen] at hrun
      cases hsc : scanPairs 1 (pairsAt bboxes frames 1) with
      | error e => rw [hsc] at hrun; simp at hrun
      | ok t1 =>
        obtain ⟨s, c, brs1⟩ := t1
        rw [hsc] at hrun
        dsimp only at hrun
        by_cases hc : c = 0
        · rw [if_pos hc] at hrun; simp at hrun
        · rw [if_neg hc] at hrun
          have hbrs1 : brs1 = adjacentBreaks bboxes frames := by
            rw [adjacentBreaks]
            exact scanPairs_breaks_one (pairsAt bboxes frames 1) s c brs1 hsc
          by_cases hgt : maxRatioBound < s / (c : ℚ)
          · rw [if_pos hgt] at hrun
            cases hrec : spacingLoop bboxes frames bboxes.length 2 with
            | error e => rw [hrec] at hrun; simp at hrun
            | ok t2 =>
              obtain ⟨i2, m2, brs2⟩ := t2
              rw [hrec] at hrun
              dsimp only at hrun
              simp only [Except.ok.injEq, Prod.mk.injEq] at hrun
              rw [← hrun.2.2, hbrs1,
                  spacingLoop_breaks_tail bboxes frames bboxes.length 2 (by omega)
                    i2 m2 brs2 hrec]
              simp
          · rw [if_neg hgt] at hrun
            simp only [Except.ok.injEq, Prod.mk.injEq] at hrun
            rw [← hrun.2.2, hbrs1]

/-- Witness for C4 at a run with one coverage gap after frame 1. -/
theorem breaks_only_at_interval_one_witness :
    getImageSpacing [⟨0, 10, 0, 1⟩, ⟨5, 15, 0, 1⟩, ⟨100, 110, 0, 1⟩, ⟨105, 115, 0, 1⟩]
        [0, 1, 2, 3] = .ok (1, [1]) ∧
    [1] = adjacentBreaks [⟨0, 10, 0, 1⟩, ⟨5, 15, 0, 1⟩, ⟨100, 110, 0, 1⟩, ⟨105, 115, 0, 1⟩]
        [0, 1, 2, 3] :=
  ⟨by decide, breaks_only_at_interval_one _ _ 1 [1] (by decide)⟩

/-- Claim C9 (counterexample): the claim's second division-by-zero scenario,
a pair with positive intersection area whose earlier frame has zero
bounding-box area, is impossible: a positive intersection area forces a
positive earlier-frame area. -/
theorem division_by_zero_counterexample :
    ¬ ∃ thisBox lastBox : Bbox,
        0 < getBboxArea (intersectBox thisBox lastBox) ∧ getBboxArea thisBox = 0 := by
  rintro ⟨tb, lb, hpos, hzero⟩
  have h2 := area_pos_of_intersect_pos tb lb hpos
  rw [hzero] at h2
  exact lt_irrefl 0 h2

/-- Claim C9 (amended): the divisions of `getImageSpacing` are unguarded:
with no positively-intersecting pair the mean divides by a zero count, and a
pair whose earlier frame has zero bounding-box area makes the per-pair ratio
divide by zero (necessarily with zero intersection area, since a positive
intersection area forces a positive earlier-frame area). -/
theorem division_by_zero_cases :
    getImageSpacing [⟨0, 1, 0, 1⟩, ⟨2, 3, 0, 1⟩] [0, 1] = .error .zeroDivision ∧
    getImageSpacing [⟨0, 0, 0, 1⟩, ⟨0, 1, 0, 1⟩] [0, 1] = .error .zeroDivision ∧
    (∀ thisBox lastBox : Bbox,
      0 < getBboxArea (intersectBox thisBox lastBox) → 0 < getBboxArea thisBox) :=
  ⟨by decide, by decide, area_pos_of_intersect_pos⟩

/-- Claim C2 (counterexample): with frames 0 and 1, start 0, stop 100,
bundle length 3, interval 1 and no breaks, the batching loop of `main` never
flushes, so no batch is emitted: the union of batch frames misses the
in-range frames, and frame 0 (neither preceding a break nor final) appears
in 0 batches rather than exactly 2. -/
theorem scheduler_claim_counterexample :
    scheduleBatches ⟨0, 100, 3, 1, []⟩ [0, 1] = [] ∧
    ¬ ((∀ x, x ∈ (scheduleBatches ⟨0, 100, 3, 1, []⟩ [0, 1]).flatten ↔ x ∈ [(0 : Int), 1]) ∧
        batchAppearances 0 (scheduleBatches ⟨0, 100, 3, 1, []⟩ [0, 1]) = 2) := by
  constructor
  · decide
  · intro hc
    have h2 := hc.2
    rw [show scheduleBatches ⟨0, 100, 3, 1, []⟩ [0, 1] = [] from by decide] at h2
    simp [batchAppearances] at h2

/-- Claim C2 (amended): when every frame lies in the configured range and the
final frame equals the stop frame, the emitted batches cover exactly the
input frames; and consecutive batches are linked: either the earlier batch
ends in a break frame (no carry-over), or its trailing `interval`-frame slice
is carried over as the leading segment of the next batch (those frames appear
in two consecutive batches). -/
theorem scheduler_coverage_overlap (p : SchedParams) (frames : List Int)
    (hr : ∀ f ∈ frames,
      (p.startFrame ≠ 0 → p.startFrame ≤ f) ∧ (p.stopFrame ≠ 0 → f ≤ p.stopFrame))
    (hlast : frames.getLast? = some p.stopFrame) :
    (∀ x, x ∈ (scheduleBatches p frames).flatten ↔ x ∈ frames) ∧
    chainOK p (scheduleBatches p frames) := by
  have hr' : ∀ f ∈ frames,
      ¬(p.startFrame ≠ 0 ∧ f < p.startFrame) ∧ ¬(p.stopFrame ≠ 0 ∧ p.stopFrame < f) := by
    intro f hf
    constructor
    · rintro ⟨hh1, hh2⟩
      exact absurd ((hr f hf).1 hh1) (not_le.mpr hh2)
    · rintro ⟨hh1, hh2⟩
      exact absurd ((hr f hf).2 hh1) (not_le.mpr hh2)
  constructor
  · have hne : frames ≠ [] := by
      intro hcon; rw [hcon] at hlast; simp at hlast
    have hgl : frames.getLast hne = p.stopFrame := by
      have h2 := List.getLast?_eq_getLast frames hne
      rw [hlast] at h2
      exact (Option.some.inj h2).symm
    have hdec : frames.dropLast ++ [p.stopFrame] = frames := by
      rw [← hgl]
      exact List.dropLast_append_getLast hne
    intro x
    constructor
    · intro hx
      have hm := (schedLoop_mem p frames ⟨[], []⟩ hr' x).mp (Or.inl hx)
      simpa using hm
    · intro hx
      have hm := (schedLoop_mem p frames ⟨[], []⟩ hr' x).mpr (Or.inr (Or.inr hx))
      rcases hm with hm | hm
      · exact hm
      · have hsplit : schedLoop p ⟨[], []⟩ frames
            = schedStep p (schedLoop p ⟨[], []⟩ frames.dropLast) p.stopFrame := by
          conv_lhs => rw [← hdec]
          rw [schedLoop_append p frames.dropLast [p.stopFrame] ⟨[], []⟩]
          rfl
        have hstop_mem : p.stopFrame ∈ frames := by
          rw [← hdec]
          exact List.mem_append.mpr (Or.inr (by simp))
        have hf := hr' p.stopFrame hstop_mem
        have hsub := schedStep_flush_cur_subset p (schedLoop p ⟨[], []⟩ frames.dropLast)
          p.stopFrame hf.1 hf.2 (le_refl _)
        rw [hsplit] at hm
        rw [scheduleBatches, hsplit]
        exact hsub x hm
  · have h2 := schedLoop_chain p frames ⟨[], []⟩ ⟨trivial, trivial⟩
    rw [scheduleBatches]
    exact h2.1

/-- Witness for C2 (amended) at the spec's Scenario A: five frames, bundle
length 3, interval 1, a break after frame 2. -/
theorem scheduler_coverage_overlap_witness :
    (∀ x, x ∈ (scheduleBatches ⟨0, 4, 3, 1, [2]⟩ [0, 1, 2, 3, 4]).flatten ↔
        x ∈ [(0 : Int), 1, 2, 3, 4]) ∧
    chainOK ⟨0, 4, 3, 1, [2]⟩ (scheduleBatches ⟨0, 4, 3, 1, [2]⟩ [0, 1, 2, 3, 4]) :=
  scheduler_coverage_overlap ⟨0, 4, 3, 1, [2]⟩ [0, 1, 2, 3, 4] (by decide) (by decide)

/-- Claim C3: the fetch retry loop of `main` runs the fetch+validate cycle
at most 10 times, returns success 0 as soon as a cycle reports zero
failures, and exits with failure -1 as soon as two consecutive cycles report
an identical (non-negative) failure count. -/
theorem fetch_retry_loop_spec (f : Nat → Int) (hf : ∀ j, 0 ≤ f j) :
    (fetchRetryMain f).2 ≤ 10 ∧
    (∀ k, k < 10 → (∀ j, j < k → f j ≠ 0 ∧ (1 ≤ j → f j ≠ f (j - 1))) → f k = 0 →
      fetchRetryMain f = (0, k + 1)) ∧
    (∀ k, k < 10 → (∀ j, j < k → f j ≠ 0 ∧ (1 ≤ j → f j ≠ f (j - 1))) →
      f k ≠ 0 → 1 ≤ k → f k = f (k - 1) → fetchRetryMain f = (-1, k + 1)) := by
  refine ⟨?_, ?_, ?_⟩
  · have h2 := fetchRetryAux_cycles_le f 10 0 (-1)
    simpa [fetchRetryMain] using h2
  · intro k hk hfree h0
    rw [fetchRetry_run_through f hf k (le_of_lt hk) hfree]
    have h10 : 10 - k = (10 - k - 1) + 1 := by omega
    rw [h10, fetchRetryAux, if_pos h0]
  · intro k hk hfree hne h1 heq
    rw [fetchRetry_run_through f hf k (le_of_lt hk) hfree]
    have h10 : 10 - k = (10 - k - 1) + 1 := by omega
    rw [h10, fetchRetryAux, if_neg hne, if_neg (show ¬ k = 0 by omega), if_pos heq]

/-- Witness for C3: a first attempt with 5 failures followed by a clean
attempt returns success after exactly 2 cycles. -/
theorem fetch_retry_loop_spec_witness :
    (∀ j, 0 ≤ (fun k => if k = 0 then (5 : Int) else 0) j) ∧
    fetchRetryMain (fun k => if k = 0 then (5 : Int) else 0) = (0, 2) := by
  have hf : ∀ j, 0 ≤ (fun k => if k = 0 then (5 : Int) else 0) j := by
    intro j
    by_cases hj : j = 0 <;> simp [hj]
  refine ⟨hf, ?_⟩
  exact (fetch_retry_loop_spec (fun k => if k = 0 then (5 : Int) else 0) hf).2.1 1
    (by decide)
    (by
      intro j hj
      have hj0 : j = 0 := by omega
      subst hj0
      exact ⟨by decide, by omega⟩)
    (by decide)

set_option maxRecDepth 8000 in
/-- Claim C5: `fetchFilesInBatches` skips pairs whose local file is already
present non-empty, groups exactly the missing files' urls into transport
invocations of at most `MAX_IN_ONE_CALL = 100` locations each, and for 250
pending files performs exactly 3 invocations sized 100, 100 and 50. -/
theorem fetch_in_batches_spec {α β : Type} :
    (∀ (present : α → Bool) (pairs : List (α × β)),
      (fetchFilesInBatches present MAX_IN_ONE_CALL pairs).flatten
          = (pairs.filter (fun q => !present q.1)).map (fun q => q.2) ∧
      ∀ b ∈ fetchFilesInBatches present MAX_IN_ONE_CALL pairs,
        b.length ≤ MAX_IN_ONE_CALL) ∧
    (fetchFilesInBatches (fun _ => false) MAX_IN_ONE_CALL
        ((List.range 250).map (fun k => (k, k)))).map List.length = [100, 100, 50] := by
  refine ⟨?_, ?_⟩
  · intro present pairs
    constructor
    · have h2 := fetchBatchesAux_join present MAX_IN_ONE_CALL (by decide) pairs []
        (fun _ => rfl) (by simp [MAX_IN_ONE_CALL])
      simpa [fetchFilesInBatches] using h2
    · exact fetchBatchesAux_sizes present MAX_IN_ONE_CALL pairs []
        (by simp [MAX_IN_ONE_CALL])
  · decide

/-- Claim C6 (counterexample): a filename containing a comma shifts the
comma-delimited fields, so writing and re-reading the index does not
reconstruct the maps that were written. -/
theorem index_round_trip_counterexample :
    readIndexFile (writeIndex [(0, ['a', ',', 'b'], ['u'])])
      ≠ .ok ([(0, ['a', ',', 'b'])], [(0, ['u'])]) := by
  decide

/-- Claim C6 (amended): for entries with distinct frame numbers whose
filenames and source-locations contain no comma and carry no leading or
trailing whitespace, writing the index (one `frame, filename, location` line
per entry) and re-reading it with `readIndexFile` reconstructs exactly the
frame-to-filename and frame-to-url maps that were written. -/
theorem index_round_trip (entries : List (Nat × List Char × List Char))
    (hkeys : (entries.map Prod.fst).Nodup)
    (hgood : ∀ e ∈ entries, goodField e.2.1 = true ∧ goodField e.2.2 = true) :
    readIndexFile (writeIndex entries)
      = .ok (entries.map (fun e => (e.1, e.2.1)), entries.map (fun e => (e.1, e.2.2))) := by
  rw [readIndexFile]
  rw [readIndexAux_write entries [] [] hgood
    (fun e _ => ⟨fun q hq => absurd hq (by simp), fun q hq => absurd hq (by simp)⟩) hkeys]
  simp

/-- Witness for C6 (amended) on a one-entry index. -/
theorem index_round_trip_witness :
    ((([(5, ['a'], ['u'])] : List (Nat × List Char × List Char)).map Prod.fst).Nodup ∧
      (∀ e ∈ ([(5, ['a'], ['u'])] : List (Nat × List Char × List Char)),
        goodField e.2.1 = true ∧ goodField e.2.2 = true)) ∧
    readIndexFile (writeIndex [(5, ['a'], ['u'])]) = .ok ([(5, ['a'])], [(5, ['u'])]) := by
  refine ⟨⟨by decide, by decide⟩, ?_⟩
  have h2 := index_round_trip [(5, ['a'], ['u'])] (by decide) (by decide)
  simpa using h2

/-- Claim C7: an index file holding a line with fewer than three
comma-delimited fields makes `readIndexFile` raise instead of returning the
maps, and the `doFetch` handler reacts by rebuilding the index with the
refetch flag forced on and reading the rebuilt index. -/
theorem short_index_line_forces_rebuild (lines : List (List Char))
    (rebuild : Bool → List (List Char))
    (h : ∃ l ∈ lines, (splitChar ',' (pyStrip l)).length ≤ 2) :
    (∃ e, readIndexFile lines = .error e) ∧
    doFetchReadIndex lines rebuild = readIndexFile (rebuild true) := by
  obtain ⟨e, he⟩ := readIndexAux_short_line_error lines [] [] h
  have he2 : readIndexFile lines = .error e := he
  refine ⟨⟨e, he2⟩, ?_⟩
  rw [doFetchReadIndex, he2]

/-- Witness for C7 on a one-line index file whose line has a single field. -/
theorem short_index_line_forces_rebuild_witness :
    (∃ l ∈ [['j']], (splitChar ',' (pyStrip l)).length ≤ 2) ∧
    ((∃ e, readIndexFile [['j']] = .error e) ∧
      doFetchReadIndex [['j']] (fun _ => writeIndex [(1, ['a'], ['u'])])
        = readIndexFile ((fun _ => writeIndex [(1, ['a'], ['u'])]) true)) :=
  ⟨by decide, short_index_line_forces_rebuild [['j']] _ (by decide)⟩

/-- Claim C8: merging a second day's entries into the combined index never
overwrites an entry already present: any frame already in the combined dict
keeps its original value (filename and source-location). -/
theorem merge_keeps_first_day {α : Type} (d localEntries : List (Nat × α)) (k : Nat)
    (h : (dictLookup d k).isSome = true) :
    dictLookup (mergeDayIndex d localEntries) k = dictLookup d k :=
  mergeDay_keeps d localEntries k h

/-- Witness for C8: frame 1 keeps the first day's value when day two also
lists frame 1. -/
theorem merge_keeps_first_day_witness :
    (dictLookup [(1, (['a'], ['u']))] 1).isSome = true ∧
    dictLookup (mergeDayIndex [(1, (['a'], ['u']))] [(1, (['b'], ['w'])), (2, (['c'], ['x']))]) 1
      = dictLookup [(1, (['a'], ['u']))] 1 :=
  ⟨by decide, merge_keeps_first_day _ _ 1 (by decide)⟩

/-- Claim C10: `hasGoodLat` rejects a latitude of exactly 0 under both
hemisphere settings, so the validation step wipes an XML sidecar declaring
latitude 0 (and its companion raster when present) regardless of the
requested hemisphere. -/
theorem zero_latitude_always_bad :
    ∀ (isSouth imageExists : Bool),
      hasGoodLat 0 isSouth = false ∧
      xmlLatValidation 0 isSouth imageExists = (true, imageExists) := by
  decide
